import Mathlib

/-!
Verification of the sushii-sns content-retrieval pipeline.

Shallow embedding of the relevant source functions:
* attachment chunking (`chunkArray`, implementation file `src/handlers/util.ts`
  absent from the sources, modelled from the spec; its unit tests are in
  `src/handlers/util.test.ts`);
* message-body joining (`itemsToMessageContents`,
  `src/handlers/util.test.ts` lines 42-61, strings modelled as `List Char`);
* the BrightData job-polling loop (`waitUntilDataReady`,
  `src/handlers/sns/downloaders/instagramPost.ts` lines 69-138, time in
  milliseconds, the poll responses modelled as a time-indexed environment);
* the TikTok fetch guards and CDN-mirror selection
  (`src/handlers/sns/downloaders/tiktok.ts` lines 118-143);
* the Instagram story bucketing (`InstagramStoryDownloader.fetchContent`,
  `downloaders/instagramStory.ts` lines 119-196);
* the URL extractors (`URL_REGEX` of the twitter / instagram-post /
  instagram-story downloaders, and `SnsDownloader.findUrls` /
  `findAllSnsLinks`), embedded as executable matchers over `List Char`;
* the orchestrator (`snsHandler`, `src/handlers/sns/handler.ts` lines
  124-159) as a trace-producing interpreter over an abstract effect
  environment.
-/

/-! ## Chunking (util.ts) -/

/-- Modelled from the spec: the implementation file `src/handlers/util.ts` is
not present in the sources (only its unit tests in `util.test.ts` and its call
sites are), so `chunkArray` follows the spec's words: split an ordered
sequence into consecutive groups of at most `n` items, preserving order, the
last group may be shorter; empty input yields zero groups.  A chunk size of 0
is given the degenerate value `[]` (the spec only constrains `n > 0`). -/
def chunkArray {α : Type} : List α → Nat → List (List α)
  | [], _ => []
  | x :: xs, n =>
    if n = 0 then []
    else ((x :: xs).take n) :: chunkArray ((x :: xs).drop n) n
termination_by l _ => l.length
decreasing_by
  simp
  omega

/-! ## Message-body joining (util.test.ts lines 42-61)

Strings are modelled as `List Char`; string length and concatenation become
list length and append.  `itemsGo` is the loop of `itemsToMessageContents`
with the accumulator `currentMsg` made explicit; the base case is the final
"push last message if not empty" step. -/

/-- Loop of `itemsToMessageContents`: `currentMsg` is the accumulator; on each
item, if `currentMsg.length + item.length > 2000` the accumulator is pushed
and reset before the item (plus a newline) is appended. -/
def itemsGo (currentMsg : List Char) : List (List Char) → List (List Char)
  | [] => if currentMsg.length > 0 then [currentMsg] else []
  | item :: rest =>
    if currentMsg.length + item.length > 2000 then
      currentMsg :: itemsGo (item ++ ['\n']) rest
    else
      itemsGo (currentMsg ++ item ++ ['\n']) rest

/-- Embedding of `itemsToMessageContents` (util.test.ts lines 42-61): joins
items with a newline into message bodies, starting a new body when the
2000-character check fires. -/
def itemsToMessageContents (items : List (List Char)) : List (List Char) :=
  itemsGo [] items

/-! ## Job-polling protocol (instagramPost.ts lines 69-138)

`waitUntilDataReady` polls the BrightData progress endpoint.  The network is
modelled as an environment assigning to each time (milliseconds since the
start of the call) the response the poll issued at that time receives.  The
code computes `cancelAt = Date.now() + 10 * 1000` and, on a 404, throws when
`Date.now() > cancelAt` and otherwise sleeps 500 ms and retries; any other
non-200 status throws immediately; a parsed body with status `failed` throws
immediately; status `ready` exits the loop; status `running` loops again
without sleeping.  Fuel bounds the number of loop iterations (the source loop
need not terminate when `running` repeats forever). -/

/-- Status values of the parsed BrightData monitor body
(`BdMonitorStatus = running | ready | failed` in `bd.ts`). -/
inductive BdStatus
  | running
  | ready
  | failed
deriving DecidableEq

/-- Poll response at one instant: HTTP 404, some other non-200 code, or a 200
with a parsed body status. -/
inductive PollResponse
  | notFound
  | httpError (code : Nat)
  | okStatus (status : BdStatus)
deriving DecidableEq

/-- Terminal outcome of the polling loop.  The fatal throws of the source are
split by their cause: 404 past the deadline (`TimedOut`), other non-200
(`FatalHttp`), parsed body status failed (`FatalFailed`). -/
inductive PollOutcome
  | Ready
  | TimedOut
  | FatalHttp
  | FatalFailed
deriving DecidableEq

/-- Fixed retry sleep of the source: `await sleep(500)`. -/
def pollSleepMs : Nat := 500

/-- Fixed timeout of the source: `10 * 1000` milliseconds. -/
def pollTimeoutMs : Nat := 10 * 1000

/-- One-loop-iteration step relation of `waitUntilDataReady`, with explicit
fuel; `t` is the current time and `cancelAt` the precomputed deadline. -/
def pollLoop (env : Nat → PollResponse) (cancelAt : Nat) : Nat → Nat → Option PollOutcome
  | 0, _ => none
  | fuel + 1, t =>
    match env t with
    | PollResponse.notFound =>
        if cancelAt < t then some PollOutcome.TimedOut
        else pollLoop env cancelAt fuel (t + pollSleepMs)
    | PollResponse.httpError _ => some PollOutcome.FatalHttp
    | PollResponse.okStatus BdStatus.failed => some PollOutcome.FatalFailed
    | PollResponse.okStatus BdStatus.ready => some PollOutcome.Ready
    | PollResponse.okStatus BdStatus.running => pollLoop env cancelAt fuel t

/-- Embedding of `waitUntilDataReady` run at start time `t0`: the deadline is
`t0 + pollTimeoutMs` exactly as `cancelAt = Date.now() + 10 * 1000`. -/
def waitUntilDataReady (env : Nat → PollResponse) (fuel : Nat) (t0 : Nat) : Option PollOutcome :=
  pollLoop env (t0 + pollTimeoutMs) fuel t0

/-- Environment replaying 404 for the first 9 seconds and then reporting a
ready body (the spec's 9-time-unit scenario, in milliseconds). -/
def readyAt9s : Nat → PollResponse :=
  fun t => if t < 9000 then PollResponse.notFound else PollResponse.okStatus BdStatus.ready

/-! ## TikTok fetch guards and mirror selection (tiktok.ts lines 118-143)

Only the guard-and-select portion of `fetchContent` is data-dependent; the
response is modelled after `TikTokPostResponseSchema` (tiktokTypes.ts) with
exactly the optional fields the guards read.  The source throws on a missing
`data`/`aweme_detail`/`video`/`play_addr`/`url_list` chain and on an empty
`url_list`, then reads `url_list[1]`, which in JavaScript may be `undefined`;
the read is modelled by `List.getElem?` at index 1. -/

structure TtPlayAddr where
  url_list : Option (List String)

structure TtVideo where
  play_addr : Option TtPlayAddr

structure TtAwemeDetail where
  video : Option TtVideo
  create_time : Option Nat

structure TtData where
  aweme_detail : Option TtAwemeDetail

structure TtPostResponse where
  data : Option TtData

/-- Optional-chain `ttPost.data?.aweme_detail?.video?.play_addr?.url_list`. -/
def ttUrlList (r : TtPostResponse) : Option (List String) :=
  r.data.bind fun d =>
    d.aweme_detail.bind fun a =>
      a.video.bind fun v =>
        v.play_addr.bind fun p => p.url_list

/-- Guard-and-select portion of `TikTokDownloader.fetchContent`: throw when
the chain is absent, throw when `url_list.length === 0`, then select
`url_list[1]` (an `Option`, `none` when the index is out of bounds, the
JavaScript `undefined`). -/
def tiktokSelectVideoUrl (r : TtPostResponse) : Except String (Option String) :=
  match ttUrlList r with
  | none => Except.error "No data"
  | some ul =>
    if ul.length = 0 then Except.error "No TikTok videos urls found"
    else Except.ok ul[1]?

/-- Concrete response passing every guard with a single-element url_list. -/
def ttSingleMirror : TtPostResponse :=
  TtPostResponse.mk (some (TtData.mk (some (TtAwemeDetail.mk
    (some (TtVideo.mk (some (TtPlayAddr.mk
      (some ["https://cdn.example/only"]))))) (some 0)))))

/-- Concrete response passing every guard with a two-element url_list. -/
def ttTwoMirrors : TtPostResponse :=
  TtPostResponse.mk (some (TtData.mk (some (TtAwemeDetail.mk
    (some (TtVideo.mk (some (TtPlayAddr.mk
      (some ["https://cdn.example/a", "https://cdn.example/b"]))))) (some 0)))))

/-! ## Orchestrator (handler.ts lines 55-67 and 124-159)

The `snsHandler` loop is embedded as a trace-producing interpreter.  The
effectful collaborators (the platform downloader's `fetchContent`, the channel
sends, the per-platform builders) are an abstract environment; each send or
fetch either returns a value or throws.  The interpreter records one event per
attempted effect and mirrors the control flow of the source exactly: the
`for await` loop over `snsService` (which fetches each link lazily, in order),
the inner loop over a link's `PostData` list (attachment batches first,
collecting the durable URLs across batches, then the content messages), and
the single `try/catch` around the whole loop that sends one failure message
and stops. -/

/-- Events recorded by the orchestrator interpreter. -/
inductive OrchEvent (L : Type)
  | fetchAttempt (link : L)
  | attachmentSend
  | contentSend
  | failureSend
deriving DecidableEq

/-- Abstract effect environment of `snsHandler`: `L` links, `P` post data,
`B` attachment-batch messages, `M` content messages, `U` durable URLs. -/
structure OrchEnv (L P B M U : Type) where
  fetchContent : L → Except Unit (List P)
  buildDiscordAttachments : P → List B
  sendAttachment : B → Except Unit (List U)
  buildDiscordMessages : P → List U → List M
  sendReply : M → Except Unit Unit

/-- Inner loop over `fileMsgs`: send each attachment batch, accumulating the
attachment URLs the channel returns; a throw aborts with `none`. -/
def sendAttachmentBatches {L P B M U : Type} (env : OrchEnv L P B M U) :
    List B → List U → (List (OrchEvent L) × Option (List U))
  | [], acc => ([], some acc)
  | b :: bs, acc =>
    match env.sendAttachment b with
    | Except.error _ => ([OrchEvent.attachmentSend], none)
    | Except.ok us =>
      let r := sendAttachmentBatches env bs (acc ++ us)
      (OrchEvent.attachmentSend :: r.1, r.2)

/-- Inner loop over `msgs`: reply with each content message in order; a throw
aborts. -/
def sendContentMessages {L P B M U : Type} (env : OrchEnv L P B M U) :
    List M → (List (OrchEvent L) × Bool)
  | [] => ([], true)
  | m :: ms =>
    match env.sendReply m with
    | Except.error _ => ([OrchEvent.contentSend], false)
    | Except.ok _ =>
      let r := sendContentMessages env ms
      (OrchEvent.contentSend :: r.1, r.2)

/-- Body of the `for (const postData of postDatas)` loop: attachment batches
first (collecting URLs), then the content messages built from those URLs. -/
def processPost {L P B M U : Type} (env : OrchEnv L P B M U) (p : P) :
    List (OrchEvent L) × Bool :=
  let ra := sendAttachmentBatches env (env.buildDiscordAttachments p) []
  match ra.2 with
  | none => (ra.1, false)
  | some urls =>
    let rm := sendContentMessages env (env.buildDiscordMessages p urls)
    (ra.1 ++ rm.1, rm.2)

/-- Sequential loop over one link's `PostData` list; an error stops it. -/
def processPosts {L P B M U : Type} (env : OrchEnv L P B M U) :
    List P → List (OrchEvent L) × Bool
  | [] => ([], true)
  | p :: ps =>
    let r := processPost env p
    if r.2 then
      let rs := processPosts env ps
      (r.1 ++ rs.1, rs.2)
    else (r.1, false)

/-- One `snsService` generator step plus the loop body for that link: the
fetch is attempted (recorded), and on success the posts are processed. -/
def processLink {L P B M U : Type} (env : OrchEnv L P B M U) (l : L) :
    List (OrchEvent L) × Bool :=
  match env.fetchContent l with
  | Except.error _ => ([OrchEvent.fetchAttempt l], false)
  | Except.ok posts =>
    let r := processPosts env posts
    (OrchEvent.fetchAttempt l :: r.1, r.2)

/-- Embedding of the `try { for await ... } catch { send one failure }` of
`snsHandler`: links are processed sequentially; the first error ends the run
with exactly one failure message and no further processing. -/
def snsHandlerRun {L P B M U : Type} (env : OrchEnv L P B M U) :
    List L → List (OrchEvent L)
  | [] => []
  | l :: ls =>
    let r := processLink env l
    if r.2 then r.1 ++ snsHandlerRun env ls
    else r.1 ++ [OrchEvent.failureSend]

/-- Recognizer for fetch events. -/
def isFetchAttempt {L : Type} : OrchEvent L → Bool
  | OrchEvent.fetchAttempt _ => true
  | _ => false

/-- Recognizer for the failure message. -/
def isFailureSend {L : Type} : OrchEvent L → Bool
  | OrchEvent.failureSend => true
  | _ => false

/-- Concrete orchestrator environment for the witness: fetching link 0
succeeds with no posts, fetching any other link throws. -/
def orchEnvW : OrchEnv Nat Unit Unit Unit Unit where
  fetchContent := fun n => if n = 0 then Except.ok [] else Except.error ()
  buildDiscordAttachments := fun _ => []
  sendAttachment := fun _ => Except.ok []
  buildDiscordMessages := fun _ _ => []
  sendReply := fun _ => Except.ok ()

/-! ## Instagram story bucketing (instagramStory.ts lines 119-196)

`InstagramStoryDownloader.fetchContent` partitions the fetched story items by
`dayjs(item.taken_at_date).tz("Asia/Seoul").format("YYMMDD")`, with the
literal key `"unknown"` for items lacking `taken_at_date`, into an
insertion-ordered `Map`.  Timestamps are modelled as milliseconds since the
Unix epoch and Asia/Seoul as the fixed UTC+9 offset it has had since 1988, so
the `YYMMDD` key becomes the KST day number (`none` standing for
`"unknown"`).  JavaScript `Map` get/set are modelled on an association list
preserving insertion order.  Optional string fields are tested for JavaScript
truthiness (present and non-empty). -/

/-- KST calendar-day number of a timestamp in milliseconds (UTC+9). -/
def kstDayNumber (t : Nat) : Nat := (t + 9 * 3600000) / 86400000

/-- Story item fields read by the bucketing loop (`StoryItemSchema`,
igStories.ts): optional capture date, optional video and thumbnail URLs. -/
structure StoryItem where
  taken_at_date : Option Nat
  video_url : Option String
  thumbnail_url : Option String

/-- JavaScript truthiness of an optional string field: present and
non-empty. -/
def truthyStr : Option String → Bool
  | none => false
  | some s => !(s.isEmpty)

/-- Bucket key of an item: its KST calendar day, or `none` for the
`"unknown"` bucket of the source. -/
def storyDateKey (item : StoryItem) : Option Nat :=
  item.taken_at_date.map kstDayNumber

/-- One bucket value of the `storiesByDate` map. -/
structure StoryBucket where
  date : Option Nat
  urls : List String
deriving DecidableEq

/-- Media selection of the loop body for one item: push the video URL when
truthy; push the thumbnail URL only when the video URL is not truthy and the
thumbnail is. -/
def storyItemUrls (item : StoryItem) : List String :=
  (if truthyStr item.video_url then [item.video_url.getD ""] else [])
    ++ (if !truthyStr item.video_url && truthyStr item.thumbnail_url then
          [item.thumbnail_url.getD ""] else [])

/-- Map lookup (`storiesByDate.get(dateKey)`). -/
def bucketsGet (m : List (Option Nat × StoryBucket)) (k : Option Nat) :
    Option StoryBucket :=
  match m with
  | [] => none
  | (k2, b) :: rest => if k2 = k then some b else bucketsGet rest k

/-- Map update (`storiesByDate.set(dateKey, storiesDay)`): replace in place
when the key exists, append otherwise (JavaScript Map insertion order). -/
def bucketsSet (m : List (Option Nat × StoryBucket)) (k : Option Nat)
    (b : StoryBucket) : List (Option Nat × StoryBucket) :=
  match m with
  | [] => [(k, b)]
  | (k2, b2) :: rest =>
    if k2 = k then (k2, b) :: rest else (k2, b2) :: bucketsSet rest k b

/-- Loop body for one story item: fetch the bucket (defaulting to an empty
bucket carrying this item's `taken_at_date`), push this item's media URLs,
store the bucket back. -/
def storyBucketStep (m : List (Option Nat × StoryBucket)) (item : StoryItem) :
    List (Option Nat × StoryBucket) :=
  let k := storyDateKey item
  let storiesDay := (bucketsGet m k).getD (StoryBucket.mk item.taken_at_date [])
  bucketsSet m k (StoryBucket.mk storiesDay.date (storiesDay.urls ++ storyItemUrls item))

/-- The bucketing loop of `fetchContent` over all story items. -/
def storiesByDate (items : List StoryItem) : List (Option Nat × StoryBucket) :=
  items.foldl storyBucketStep []

/-- Fields of the emitted `PostData` that the bucketing determines: the
bucket's representative timestamp and its media URL list. -/
structure StoryPostData where
  timestamp : Option Nat
  urls : List String
deriving DecidableEq

/-- The `PostData` list built from the buckets, one per bucket in map
order (`for (const ... of storiesByDate.values())`). -/
def storyPostDatas (items : List StoryItem) : List StoryPostData :=
  (storiesByDate items).map (fun kb => StoryPostData.mk kb.2.date kb.2.urls)

/-- Boolean filter for items carrying a given bucket key. -/
def sameKey (k : Option Nat) (it : StoryItem) : Bool := storyDateKey it == k

/-- Concrete story items for the witnesses. -/
def storyItemBoth : StoryItem :=
  StoryItem.mk (some 1700000000000) (some "https://cdn.example/video.mp4")
    (some "https://cdn.example/thumb.jpg")

/-- Concrete story item lacking a capture timestamp, thumbnail only. -/
def storyItemUnknown : StoryItem :=
  StoryItem.mk none none (some "https://cdn.example/thumb2.jpg")

/-! ## URL extractors (downloaders' URL_REGEX and findUrls)

Each platform's `URL_REGEX` is embedded as an executable matcher over
`List Char`.  The regular expressions use the `i` flag, so literal characters
are compared after ASCII lowering; character classes are the JavaScript ASCII
classes.  The matchers are deterministic compilations of the patterns: a
greedy character-class run followed by a character outside the class needs no
backtracking, literal alternations are tried in the pattern's order, and the
one alternation whose branches share a continuation (the instagram-post
middle group) retries the second branch when the first branch's continuation
fails, exactly as the backtracking engine does.  `findUrls` (`matchAll` with
the `g` flag) is the scanner `scanAll`: it tries each start position in
order and resumes after the end of each match.  The live instagram-story
regex (`downloaders/instagramStory.ts`) ends in `\/$`, so its matcher
requires the end of the input right after the matched span. -/

/-- JavaScript `\w` (ASCII). -/
def isWordChar (c : Char) : Bool := c.isAlphanum || c == '_'

/-- Character class `[\w.]` of the instagram-post username group. -/
def isWordDotChar (c : Char) : Bool := isWordChar c || c == '.'

/-- Character class `[\w-]` of the instagram id and story segment groups. -/
def isWordDashChar (c : Char) : Bool := isWordChar c || c == '-'

/-- ASCII whitespace (for `\S` in the twitter query/fragment groups). -/
def isSpaceChar (c : Char) : Bool :=
  c == ' ' || c == '\t' || c == '\n' || c == '\r'

/-- JavaScript `\S`, restricted to ASCII whitespace. -/
def isNonSpaceChar (c : Char) : Bool := !(isSpaceChar c)

/-- Consume a literal (given lowercased), comparing case-insensitively;
returns the remainder. -/
def ciLit : List Char → List Char → Option (List Char)
  | [], s => some s
  | _ :: _, [] => none
  | c :: cs, x :: xs => if x.toLower == c then ciLit cs xs else none

/-- Ordered alternation of literals (the pattern's order). -/
def ciAlt (lits : List (List Char)) (s : List Char) : Option (List Char) :=
  match lits with
  | [] => none
  | l :: ls =>
    match ciLit l s with
    | some r => some r
    | none => ciAlt ls s

/-- Optional ordered alternation of literals: consume the first match, or
nothing. -/
def ciOpt (lits : List (List Char)) (s : List Char) : List Char :=
  (ciAlt lits s).getD s

/-- Greedy run of a character class: maximal prefix satisfying `p`. -/
def chompRun (p : Char → Bool) : List Char → (List Char × List Char)
  | [] => ([], [])
  | c :: cs =>
    if p c then
      let r := chompRun p cs
      (c :: r.1, r.2)
    else ([], c :: cs)

/-- Greedy `X+`: at least one class character. -/
def chompPlus (p : Char → Bool) (s : List Char) : Option (List Char × List Char) :=
  let r := chompRun p s
  if r.1.isEmpty then none else some r

/-- Greedy `X{n,}`: at least `n` class characters. -/
def chompAtLeast (p : Char → Bool) (n : Nat) (s : List Char) :
    Option (List Char × List Char) :=
  let r := chompRun p s
  if r.1.length < n then none else some r

/-- The shared `https?:\/\/` scheme part. -/
def schemeHttp (s : List Char) : Option (List Char) :=
  match ciLit "http".toList s with
  | none => none
  | some s1 => ciLit "://".toList (ciOpt [['s']] s1)

/-- Capture groups of the twitter regex: `(\w+)` and `(\d+)`. -/
structure TwCaps where
  username : List Char
  id : List Char
deriving DecidableEq

/-- The optional `(\/(?:photo|video)\/\d)?` group of the twitter regex. -/
def twitterPhotoVideoOpt (s : List Char) : List Char :=
  match ciLit ['/'] s with
  | none => s
  | some s1 =>
    match ciAlt ["photo".toList, "video".toList] s1 with
    | none => s
    | some s2 =>
      match s2 with
      | [] => s
      | c :: rest => if c.isDigit then rest else s

/-- The optional `(?:\?\S+)?` and `(?:#\S+)?` trailing groups (`c0` is the
leading literal character). -/
def twitterTrailOpt (c0 : Char) (s : List Char) : List Char :=
  match s with
  | [] => []
  | c :: rest =>
    if c == c0 then
      match chompPlus isNonSpaceChar rest with
      | some r => r.2
      | none => c :: rest
    else c :: rest

/-- Matcher of `TwitterDownloader.URL_REGEX` at the start of `s`: returns the
match length and the username/id captures. -/
def twitterMatchAt (s : List Char) : Option (Nat × TwCaps) :=
  match schemeHttp s with
  | none => none
  | some s1 =>
    match ciAlt ["twitter.com".toList, "x.com".toList]
        (ciOpt ["www.".toList, "m.".toList, "mobile.".toList] s1) with
    | none => none
    | some s3 =>
      match ciLit ['/'] s3 with
      | none => none
      | some s4 =>
        match chompPlus isWordChar s4 with
        | none => none
        | some (user, s5) =>
          match ciLit "/status/".toList s5 with
          | none => none
          | some s6 =>
            match chompPlus Char.isDigit s6 with
            | none => none
            | some (id, s7) =>
              some (s.length -
                (twitterTrailOpt '#' (twitterTrailOpt '?'
                  (ciOpt [['/']] (twitterPhotoVideoOpt s7)))).length,
                TwCaps.mk user id)

/-- The shared continuation `([\w-]+)\/` of the instagram-post regex. -/
def igIdSlash (s : List Char) : Option (List Char) :=
  match chompPlus isWordDashChar s with
  | none => none
  | some (_, s1) => ciLit ['/'] s1

/-- First branch `([\w.]+)\/reels?\/` of the instagram-post middle group. -/
def igPostAlt1 (s : List Char) : Option (List Char) :=
  match chompPlus isWordDotChar s with
  | none => none
  | some (_, s1) =>
    match ciLit "/reel".toList s1 with
    | none => none
    | some s2 => ciLit ['/'] (ciOpt [['s']] s2)

/-- Second branch `(?:p|reels?|tv)\/` of the middle group, with the trailing
slash folded into each ordered alternative. -/
def igPostAlt2 (s : List Char) : Option (List Char) :=
  ciAlt ["p/".toList, "reels/".toList, "reel/".toList, "tv/".toList] s

/-- Middle group plus continuation of the instagram-post regex; when the
first branch matches but the continuation fails, the second branch is
retried, as the backtracking engine does. -/
def igPostTail (s : List Char) : Option (List Char) :=
  match igPostAlt1 s with
  | some s1 =>
    (match igIdSlash s1 with
     | some s2 => some s2
     | none =>
       match igPostAlt2 s with
       | none => none
       | some s3 => igIdSlash s3)
  | none =>
    match igPostAlt2 s with
    | none => none
    | some s3 => igIdSlash s3

/-- Matcher of `InstagramPostDownloader.URL_REGEX` at the start of `s`. -/
def igPostMatchAt (s : List Char) : Option (Nat × Unit) :=
  match schemeHttp s with
  | none => none
  | some s1 =>
    match ciLit "instagram.com/".toList (ciOpt ["www.".toList] s1) with
    | none => none
    | some s3 =>
      match igPostTail s3 with
      | none => none
      | some s4 => some (s.length - s4.length, ())

/-- Matcher of the live `InstagramStoryDownloader.URL_REGEX`
(`https?:\/\/(?:www\.)?instagram\.com\/([\w-]{3,})\/$`) at the start of `s`;
the `$` anchor demands the end of the input right after the span. -/
def igStoryMatchAt (s : List Char) : Option (Nat × Unit) :=
  match schemeHttp s with
  | none => none
  | some s1 =>
    match ciLit "instagram.com/".toList (ciOpt ["www.".toList] s1) with
    | none => none
    | some s3 =>
      match chompAtLeast isWordDashChar 3 s3 with
      | none => none
      | some (_, s4) =>
        match ciLit ['/'] s4 with
        | none => none
        | some s5 => if s5.isEmpty then some (s.length - s5.length, ()) else none

/-- One reported match of the scanner. -/
structure ScanHit (α : Type) where
  pos : Nat
  len : Nat
  caps : α
deriving DecidableEq

/-- Loop of the scanner, structurally recursive on a fuel that bounds the
number of iterations (each iteration consumes at least one character, so a
fuel of the text length is always enough). -/
def scanAllGo {α : Type} (m : List Char → Option (Nat × α)) :
    Nat → List Char → Nat → List (ScanHit α)
  | 0, _, _ => []
  | _ + 1, [], _ => []
  | fuel + 1, c :: rest, pos =>
    match m (c :: rest) with
    | some (len, caps) =>
      ScanHit.mk pos len caps ::
        scanAllGo m fuel ((c :: rest).drop (max len 1)) (pos + max len 1)
    | none => scanAllGo m fuel rest (pos + 1)

/-- Embedding of `content.matchAll(URL_REGEX)` with the `g` flag: try every
start position in order, resume after the end of each match (matches here are
never empty; the `max len 1` guard only serves termination). -/
def scanAll {α : Type} (m : List Char → Option (Nat × α))
    (s : List Char) (pos : Nat) : List (ScanHit α) :=
  scanAllGo m s.length s pos

/-- Platform-specific metadata of a found link (`createLinkFromMatch`). -/
inductive SnsLinkMeta
  | twitter (username : List Char) (id : List Char)
  | instagram
  | instagramStory
deriving DecidableEq

/-- A found link together with the position of its match in the text. -/
structure PosLink where
  pos : Nat
  url : List Char
  metadata : SnsLinkMeta
deriving DecidableEq

/-- The span of a match (its `match[0]`). -/
def spanAt (text : List Char) (pos len : Nat) : List Char :=
  (text.drop pos).take len

/-- `twitterDownloader.findUrls`, with match positions kept. -/
def twitterFindUrlsPos (text : List Char) : List PosLink :=
  (scanAll twitterMatchAt text 0).map fun h =>
    PosLink.mk h.pos (spanAt text h.pos h.len)
      (SnsLinkMeta.twitter h.caps.username h.caps.id)

/-- `instagramDownloader.findUrls`, with match positions kept. -/
def igPostFindUrlsPos (text : List Char) : List PosLink :=
  (scanAll igPostMatchAt text 0).map fun h =>
    PosLink.mk h.pos (spanAt text h.pos h.len) SnsLinkMeta.instagram

/-- `instagramStoryDownloader.findUrls`, with match positions kept. -/
def igStoryFindUrlsPos (text : List Char) : List PosLink :=
  (scanAll igStoryMatchAt text 0).map fun h =>
    PosLink.mk h.pos (spanAt text h.pos h.len) SnsLinkMeta.instagramStory

/-- Embedding of `findAllSnsLinks` (handler.ts lines 32-38): the three
platforms' results concatenated in registration order. -/
def findAllSnsLinksPos (text : List Char) : List PosLink :=
  twitterFindUrlsPos text ++ igPostFindUrlsPos text ++ igStoryFindUrlsPos text

/-- The links as the handler sees them (position forgotten). -/
def findAllSnsLinks (text : List Char) : List (List Char × SnsLinkMeta) :=
  (findAllSnsLinksPos text).map fun pl => (pl.url, pl.metadata)

/-- Concrete message text for the C7 counterexample: an instagram post URL
followed by a twitter URL. -/
def cText7 : List Char :=
  "https://instagram.com/p/Ab/ https://x.com/u/status/1".toList

/-- Lowered scheme-plus-authority prefixes a twitter match can start with. -/
def twitterPrefixStrings : List (List Char) :=
  ["http://twitter.com".toList, "http://x.com".toList,
   "http://www.twitter.com".toList, "http://www.x.com".toList,
   "http://m.twitter.com".toList, "http://m.x.com".toList,
   "http://mobile.twitter.com".toList, "http://mobile.x.com".toList,
   "https://twitter.com".toList, "https://x.com".toList,
   "https://www.twitter.com".toList, "https://www.x.com".toList,
   "https://m.twitter.com".toList, "https://m.x.com".toList,
   "https://mobile.twitter.com".toList, "https://mobile.x.com".toList]

/-- Lowered scheme-plus-authority prefixes an instagram match (post or
story) can start with. -/
def igPrefixStrings : List (List Char) :=
  ["http://instagram.com/".toList, "http://www.instagram.com/".toList,
   "https://instagram.com/".toList, "https://www.instagram.com/".toList]

/-! # Theorems -/

/-! ## C1: attachment batching -/

/-- Auxiliary: chunk concatenation restores the input list. -/
theorem chunkArray_flatten {α : Type} (l : List α) (n : Nat) :
    0 < n → (chunkArray l n).flatten = l := by
  induction l, n using chunkArray.induct with
  | case1 n => simp [chunkArray]
  | case2 x xs => intro hn; omega
  | case3 x xs n h ih =>
      intro hn
      rw [chunkArray, if_neg h, List.flatten_cons, ih hn, List.take_append_drop]

/-- Auxiliary: number of chunks is the ceiling of length over chunk size. -/
theorem chunkArray_length {α : Type} (l : List α) (n : Nat) :
    0 < n → (chunkArray l n).length = (l.length + n - 1) / n := by
  induction l, n using chunkArray.induct with
  | case1 n =>
      intro hn
      rw [chunkArray]
      simp only [List.length_nil]
      exact (Nat.div_eq_of_lt (by omega)).symm
  | case2 x xs => intro hn; omega
  | case3 x xs n h ih =>
      intro hn
      rw [chunkArray, if_neg h]
      simp only [List.length_cons, ih hn, List.length_drop]
      rcases le_or_lt n (xs.length + 1) with hle | hlt
      · have h1 : xs.length + 1 - n + n - 1 = xs.length := by omega
        have h2 : xs.length + 1 + n - 1 = xs.length + n := by omega
        rw [h1, h2, Nat.add_div_right _ hn]
      · have h1 : xs.length + 1 - n + n - 1 = n - 1 := by omega
        have h2 : (xs.length + 1 + n - 1) / n = 1 := by
          apply Nat.div_eq_of_lt_le
          · omega
          · omega
        have h3 : (n - 1) / n = 0 := Nat.div_eq_of_lt (by omega)
        rw [h1, h2, h3]

/-- Auxiliary: every chunk except possibly the last has exactly n elements. -/
theorem chunkArray_dropLast_length {α : Type} (l : List α) (n : Nat) :
    0 < n → ∀ c ∈ (chunkArray l n).dropLast, c.length = n := by
  induction l, n using chunkArray.induct with
  | case1 n => simp [chunkArray]
  | case2 x xs => intro hn; omega
  | case3 x xs n h ih =>
      intro hn
      rw [chunkArray, if_neg h]
      cases hrest : chunkArray ((x :: xs).drop n) n with
      | nil => simp
      | cons c cs =>
          have hdropne : (x :: xs).drop n ≠ [] := by
            intro hdrop
            rw [hdrop] at hrest
            simp [chunkArray] at hrest
          have hlen : n < (x :: xs).length := by
            by_contra hcon
            push_neg at hcon
            exact hdropne (List.drop_eq_nil_of_le hcon)
          intro b hb
          rw [← hrest] at hb
          rw [List.dropLast_cons_of_ne_nil (by rw [hrest]; simp)] at hb
          rcases List.mem_cons.mp hb with hb1 | hb2
          · rw [hb1, List.length_take]
            omega
          · exact ih hn b hb2

/-- C1: for every sequence and every batch size n > 0, `chunkArray` produces
exactly ceil(L/n) batches, every batch except possibly the last has exactly n
elements, the concatenation of the batches in order equals the original
sequence, and the empty sequence yields zero batches. -/
theorem chunkArray_spec {α : Type} (l : List α) (n : Nat) (hn : 0 < n) :
    (chunkArray l n).length = (l.length + n - 1) / n ∧
    (∀ c ∈ (chunkArray l n).dropLast, c.length = n) ∧
    (chunkArray l n).flatten = l ∧
    chunkArray ([] : List α) n = [] := by
  refine ⟨chunkArray_length l n hn, chunkArray_dropLast_length l n hn,
    chunkArray_flatten l n hn, by simp [chunkArray]⟩

/-- Witness for C1 at a concrete input: five items in chunks of two. -/
theorem chunkArray_spec_witness :
    0 < 2 ∧
    ((chunkArray [1, 2, 3, 4, 5] 2).length = (5 + 2 - 1) / 2 ∧
      (∀ c ∈ (chunkArray [1, 2, 3, 4, 5] 2).dropLast, c.length = 2) ∧
      (chunkArray [1, 2, 3, 4, 5] 2).flatten = [1, 2, 3, 4, 5] ∧
      chunkArray ([] : List Nat) 2 = []) :=
  ⟨by decide, chunkArray_spec [1, 2, 3, 4, 5] 2 (by decide)⟩

/-! ## C2 and C9: message-body joining -/

/-- Auxiliary invariant: with every item at most 2000 characters and an
accumulator of at most 2001 characters, every produced body has at most 2001
characters. -/
theorem itemsGo_length_le (items : List (List Char)) :
    ∀ currentMsg : List Char, currentMsg.length ≤ 2001 →
      (∀ i ∈ items, i.length ≤ 2000) →
      ∀ b ∈ itemsGo currentMsg items, b.length ≤ 2001 := by
  induction items with
  | nil =>
      intro cm hcm _ b hb
      rw [itemsGo] at hb
      by_cases hc : cm.length > 0
      · rw [if_pos hc] at hb
        simp at hb
        rw [hb]
        exact hcm
      · rw [if_neg hc] at hb
        simp at hb
  | cons item rest ih =>
      intro cm hcm hitems b hb
      rw [itemsGo] at hb
      have hitem : item.length ≤ 2000 := hitems item (by simp)
      have hrest : ∀ i ∈ rest, i.length ≤ 2000 :=
        fun i hi => hitems i (List.mem_cons_of_mem _ hi)
      by_cases hc : cm.length + item.length > 2000
      · rw [if_pos hc] at hb
        rcases List.mem_cons.mp hb with hb1 | hb2
        · rw [hb1]; exact hcm
        · exact ih (item ++ ['\n']) (by simp; omega) hrest b hb2
      · rw [if_neg hc] at hb
        exact ih (cm ++ item ++ ['\n']) (by simp; omega) hrest b hb

/-- C2 counterexample: a single item of length exactly 2000 passes the
per-item bound but yields a body of length 2001, because the source checks
`currentMsg.length + item.length > 2000` before appending `item + "\n"` and
the appended newline is not counted. -/
theorem itemsToMessageContents_le2000_cex :
    ¬ (∀ items : List (List Char), (∀ i ∈ items, i.length ≤ 2000) →
        ∀ b ∈ itemsToMessageContents items, b.length ≤ 2000) := by
  intro hclaim
  have e1 : itemsToMessageContents [List.replicate 2000 'a']
      = [List.replicate 2000 'a' ++ ['\n']] := by
    rw [itemsToMessageContents, itemsGo,
      if_neg (by rw [List.length_nil, List.length_replicate]; omega), itemsGo,
      if_pos (by rw [List.nil_append, List.length_append, List.length_replicate]; omega),
      List.nil_append]
  have hlen := hclaim [List.replicate 2000 'a']
    (by
      intro i hi
      rw [List.mem_singleton] at hi
      rw [hi, List.length_replicate])
    (List.replicate 2000 'a' ++ ['\n'])
    (by rw [e1]; exact List.mem_singleton.mpr rfl)
  rw [List.length_append, List.length_replicate] at hlen
  exact absurd hlen (by simp)

/-- C2 amended: when every item has length at most 2000, every produced body
has length at most 2001 (the per-item newline appended after the length check
can push a body one character over the 2000 limit, and 2001 is reached). -/
theorem itemsToMessageContents_le2001 (items : List (List Char))
    (h : ∀ i ∈ items, i.length ≤ 2000) :
    ∀ b ∈ itemsToMessageContents items, b.length ≤ 2001 :=
  itemsGo_length_le items [] (by simp) h

/-- Witness for the amended C2 at a concrete input. -/
theorem itemsToMessageContents_le2001_witness :
    (∀ i ∈ [['a'], ['b']], i.length ≤ 2000) ∧
      ∀ b ∈ itemsToMessageContents [['a'], ['b']], b.length ≤ 2001 :=
  ⟨by decide, itemsToMessageContents_le2001 [['a'], ['b']] (by decide)⟩

/-- Auxiliary: the loop flattens to the accumulator followed by every item
with its newline. -/
theorem itemsGo_flatten (items : List (List Char)) :
    ∀ currentMsg, (itemsGo currentMsg items).flatten
      = currentMsg ++ (items.map (fun i => i ++ ['\n'])).flatten := by
  induction items with
  | nil =>
      intro cm
      rw [itemsGo]
      by_cases hc : cm.length > 0
      · simp [hc]
      · have hnil : cm = [] := List.eq_nil_of_length_eq_zero (by omega)
        simp [hc, hnil]
  | cons item rest ih =>
      intro cm
      rw [itemsGo]
      by_cases hc : cm.length + item.length > 2000
      · rw [if_pos hc]
        simp only [List.flatten_cons, ih, List.map_cons]
      · rw [if_neg hc]
        simp only [ih, List.map_cons, List.flatten_cons, List.append_assoc]

/-- C9: concatenating all produced bodies in order reproduces the original
items in order, each followed by exactly one newline. -/
theorem itemsToMessageContents_roundtrip (items : List (List Char)) :
    (itemsToMessageContents items).flatten
      = (items.map (fun i => i ++ ['\n'])).flatten := by
  rw [itemsToMessageContents, itemsGo_flatten]
  simp

/-! ## C3: job-polling protocol -/

/-- C3: the polling protocol as a conjunction: a 404 response past the
deadline terminates `TimedOut`; a 404 within the deadline retries after the
fixed 500 ms interval; the concrete 9-second-of-404-then-ready run ends
`Ready`; the always-404 run ends `TimedOut`; any non-200 non-404 status and a
parsed failed body terminate fatally at once, independent of the remaining
fuel and of every later response. -/
theorem waitUntilDataReady_protocol :
    (∀ env cancelAt fuel t, env t = PollResponse.notFound → cancelAt < t →
        pollLoop env cancelAt (fuel + 1) t = some PollOutcome.TimedOut) ∧
    (∀ env cancelAt fuel t, env t = PollResponse.notFound → t ≤ cancelAt →
        pollLoop env cancelAt (fuel + 1) t
          = pollLoop env cancelAt fuel (t + pollSleepMs)) ∧
    waitUntilDataReady readyAt9s 25 0 = some PollOutcome.Ready ∧
    waitUntilDataReady (fun _ => PollResponse.notFound) 25 0
      = some PollOutcome.TimedOut ∧
    (∀ env cancelAt fuel t c, env t = PollResponse.httpError c →
        pollLoop env cancelAt (fuel + 1) t = some PollOutcome.FatalHttp) ∧
    (∀ env cancelAt fuel t, env t = PollResponse.okStatus BdStatus.failed →
        pollLoop env cancelAt (fuel + 1) t = some PollOutcome.FatalFailed) := by
  refine ⟨?_, ?_, ?_, ?_, ?_, ?_⟩
  · intro env cancelAt fuel t he hd
    rw [pollLoop, he, if_pos hd]
  · intro env cancelAt fuel t he hd
    rw [pollLoop, he, if_neg (by omega)]
  · decide
  · decide
  · intro env cancelAt fuel t c he
    rw [pollLoop, he]
  · intro env cancelAt fuel t he
    rw [pollLoop, he]

/-! ## C10: TikTok mirror selection -/

/-- C10 counterexample: a response whose `url_list` has exactly one element
passes every guard (only emptiness is checked) yet the selected element
`url_list[1]` is absent. -/
theorem tiktok_mirror_index_cex :
    ¬ (∀ (r : TtPostResponse) (u : Option String),
        tiktokSelectVideoUrl r = Except.ok u → u.isSome = true) := by
  intro hclaim
  have h := hclaim ttSingleMirror none rfl
  simp at h

/-- C10 amended: whenever the guards pass, `url_list` is present and
non-empty, the selected url is `url_list[1]`, and that index is in bounds
exactly when `url_list` has at least two elements. -/
theorem tiktokSelectVideoUrl_bounds (r : TtPostResponse) (u : Option String)
    (h : tiktokSelectVideoUrl r = Except.ok u) :
    ∃ ul, ttUrlList r = some ul ∧ 1 ≤ ul.length ∧ u = ul[1]? ∧
      (u.isSome = true ↔ 2 ≤ ul.length) := by
  unfold tiktokSelectVideoUrl at h
  cases hul : ttUrlList r with
  | none =>
      rw [hul] at h
      exact absurd h (by simp)
  | some ul =>
      rw [hul] at h
      have h2 : (if ul.length = 0 then
          (Except.error "No TikTok videos urls found" : Except String (Option String))
          else Except.ok ul[1]?) = Except.ok u := h
      by_cases hlen : ul.length = 0
      · rw [if_pos hlen] at h2
        exact absurd h2 (by simp)
      · rw [if_neg hlen] at h2
        have hu : u = ul[1]? := (Except.ok.inj h2).symm
        refine ⟨ul, rfl, by omega, hu, ?_⟩
        rw [hu]
        constructor
        · intro hs
          by_contra hcon
          rw [List.getElem?_eq_none (by omega)] at hs
          simp at hs
        · intro hs
          rw [List.getElem?_eq_getElem (by omega)]
          simp

/-- Witness for the amended C10 at the two-mirror response. -/
theorem tiktokSelectVideoUrl_bounds_witness :
    tiktokSelectVideoUrl ttTwoMirrors = Except.ok (some "https://cdn.example/b") ∧
      ∃ ul, ttUrlList ttTwoMirrors = some ul ∧ 1 ≤ ul.length ∧
        (some "https://cdn.example/b") = ul[1]? ∧
        ((some "https://cdn.example/b").isSome = true ↔ 2 ≤ ul.length) :=
  ⟨rfl, tiktokSelectVideoUrl_bounds ttTwoMirrors (some "https://cdn.example/b") rfl⟩

/-! ## C8: orchestrator fail-fast -/

/-- Auxiliary: attachment-batch sends record only attachment events. -/
theorem sendAttachmentBatches_events {L P B M U : Type} (env : OrchEnv L P B M U) :
    ∀ (bs : List B) (acc : List U),
      ∀ e ∈ (sendAttachmentBatches env bs acc).1, e = OrchEvent.attachmentSend := by
  intro bs
  induction bs with
  | nil => intro acc e he; simp [sendAttachmentBatches] at he
  | cons b bs ih =>
      intro acc e he
      rw [sendAttachmentBatches] at he
      cases hsend : env.sendAttachment b with
      | error _ =>
          rw [hsend] at he
          simp at he
          exact he
      | ok us =>
          rw [hsend] at he
          simp only at he
          rcases List.mem_cons.mp he with h1 | h2
          · exact h1
          · exact ih (acc ++ us) e h2

/-- Auxiliary: content-message sends record only content events. -/
theorem sendContentMessages_events {L P B M U : Type} (env : OrchEnv L P B M U) :
    ∀ (ms : List M), ∀ e ∈ (sendContentMessages env ms).1, e = OrchEvent.contentSend := by
  intro ms
  induction ms with
  | nil => intro e he; simp [sendContentMessages] at he
  | cons m ms ih =>
      intro e he
      rw [sendContentMessages] at he
      cases hsend : env.sendReply m with
      | error _ =>
          rw [hsend] at he
          simp at he
          exact he
      | ok _ =>
          rw [hsend] at he
          simp only at he
          rcases List.mem_cons.mp he with h1 | h2
          · exact h1
          · exact ih e h2

/-- Auxiliary: a post's processing records only attachment and content
events. -/
theorem processPost_events {L P B M U : Type} (env : OrchEnv L P B M U) (p : P) :
    ∀ e ∈ (processPost env p).1,
      e = OrchEvent.attachmentSend ∨ e = OrchEvent.contentSend := by
  intro e he
  rw [processPost] at he
  cases hra : (sendAttachmentBatches env (env.buildDiscordAttachments p) []).2 with
  | none =>
      rw [hra] at he
      simp only at he
      exact Or.inl (sendAttachmentBatches_events env _ _ e he)
  | some urls =>
      rw [hra] at he
      simp only at he
      rcases List.mem_append.mp he with h1 | h2
      · exact Or.inl (sendAttachmentBatches_events env _ _ e h1)
      · exact Or.inr (sendContentMessages_events env _ e h2)

/-- Auxiliary: a link's post-list processing records only attachment and
content events. -/
theorem processPosts_events {L P B M U : Type} (env : OrchEnv L P B M U) :
    ∀ (ps : List P), ∀ e ∈ (processPosts env ps).1,
      e = OrchEvent.attachmentSend ∨ e = OrchEvent.contentSend := by
  intro ps
  induction ps with
  | nil => intro e he; simp [processPosts] at he
  | cons p ps ih =>
      intro e he
      rw [processPosts] at he
      by_cases hok : (processPost env p).2
      · rw [if_pos hok] at he
        simp only at he
        rcases List.mem_append.mp he with h1 | h2
        · exact processPost_events env p e h1
        · exact ih e h2
      · rw [if_neg hok] at he
        exact processPost_events env p e he

/-- Auxiliary: each link's trace holds exactly one fetch attempt and no
failure message. -/
theorem processLink_events_count {L P B M U : Type} (env : OrchEnv L P B M U) (l : L) :
    (processLink env l).1.countP (fun e => isFetchAttempt e) = 1 ∧
    (processLink env l).1.countP (fun e => isFailureSend e) = 0 := by
  rw [processLink]
  cases hf : env.fetchContent l with
  | error _ => simp [isFetchAttempt, isFailureSend]
  | ok posts =>
      simp only
      constructor
      · rw [List.countP_cons_of_pos _ _ (by simp [isFetchAttempt])]
        rw [List.countP_eq_zero.mpr]
        intro e he
        rcases processPosts_events env posts e he with h1 | h1 <;>
          simp [h1, isFetchAttempt]
      · rw [List.countP_cons_of_neg _ _ (by simp [isFailureSend])]
        rw [List.countP_eq_zero.mpr]
        intro e he
        rcases processPosts_events env posts e he with h1 | h1 <;>
          simp [h1, isFailureSend]

/-- Auxiliary: event counts over the successful prefix. -/
theorem flatMap_processLink_count {L P B M U : Type} (env : OrchEnv L P B M U)
    (pre : List L) :
    (pre.flatMap fun l2 => (processLink env l2).1).countP
        (fun e => isFetchAttempt e) = pre.length ∧
    (pre.flatMap fun l2 => (processLink env l2).1).countP
        (fun e => isFailureSend e) = 0 := by
  induction pre with
  | nil => simp
  | cons p pre ih =>
      rw [List.flatMap_cons, List.countP_append, List.countP_append]
      rcases processLink_events_count env p with ⟨h1, h2⟩
      rw [h1, h2, ih.1, ih.2]
      simp [Nat.add_comm]

/-- Auxiliary: trace equality when the first failing link is reached. -/
theorem snsHandlerRun_fail_eq {L P B M U : Type} (env : OrchEnv L P B M U)
    (pre post : List L) (l : L)
    (hpre : ∀ l2 ∈ pre, (processLink env l2).2 = true)
    (hfail : (processLink env l).2 = false) :
    snsHandlerRun env (pre ++ l :: post)
      = pre.flatMap (fun l2 => (processLink env l2).1)
        ++ (processLink env l).1 ++ [OrchEvent.failureSend] := by
  induction pre with
  | nil =>
      rw [List.nil_append, snsHandlerRun]
      simp [hfail]
  | cons p pre ih =>
      rw [List.cons_append, snsHandlerRun]
      have hp : (processLink env p).2 = true := hpre p (by simp)
      simp only [hp, if_pos]
      rw [ih (fun l2 hl2 => hpre l2 (List.mem_cons_of_mem _ hl2))]
      rw [List.flatMap_cons]
      simp [List.append_assoc]

/-- C8: if processing some link fails (at fetch, attachment send, or content
send) while every earlier link succeeded, the whole run is exactly the traces
of the earlier links followed by the failing link's trace and one failure
message: links after the failing one contribute nothing (they are neither
fetched nor sent for), every link up to the failing one is fetched exactly
once (nothing is retried), and exactly one failure message is sent. -/
theorem snsHandler_failFast {L P B M U : Type} (env : OrchEnv L P B M U)
    (pre post : List L) (l : L)
    (hpre : ∀ l2 ∈ pre, (processLink env l2).2 = true)
    (hfail : (processLink env l).2 = false) :
    snsHandlerRun env (pre ++ l :: post)
      = pre.flatMap (fun l2 => (processLink env l2).1)
        ++ (processLink env l).1 ++ [OrchEvent.failureSend] ∧
    (snsHandlerRun env (pre ++ l :: post)).countP
        (fun e => isFetchAttempt e) = pre.length + 1 ∧
    (snsHandlerRun env (pre ++ l :: post)).countP
        (fun e => isFailureSend e) = 1 := by
  have heq := snsHandlerRun_fail_eq env pre post l hpre hfail
  refine ⟨heq, ?_, ?_⟩
  · rw [heq, List.countP_append, List.countP_append]
    rw [(flatMap_processLink_count env pre).1, (processLink_events_count env l).1]
    simp [isFetchAttempt]
  · rw [heq, List.countP_append, List.countP_append]
    rw [(flatMap_processLink_count env pre).2, (processLink_events_count env l).2]
    simp [isFailureSend]

/-- Witness for C8: a concrete run where link 0 succeeds, link 1 fails at
fetch, and link 2 follows. -/
theorem snsHandler_failFast_witness :
    (∀ l2 ∈ [0], (processLink orchEnvW l2).2 = true) ∧
    (processLink orchEnvW 1).2 = false ∧
    (snsHandlerRun orchEnvW ([0] ++ 1 :: [2])
      = [0].flatMap (fun l2 => (processLink orchEnvW l2).1)
        ++ (processLink orchEnvW 1).1 ++ [OrchEvent.failureSend] ∧
    (snsHandlerRun orchEnvW ([0] ++ 1 :: [2])).countP
        (fun e => isFetchAttempt e) = [0].length + 1 ∧
    (snsHandlerRun orchEnvW ([0] ++ 1 :: [2])).countP
        (fun e => isFailureSend e) = 1) :=
  ⟨by decide, by decide,
    snsHandler_failFast orchEnvW [0] [2] 1 (by decide) (by decide)⟩

/-! ## C4 and C5: story media preference and bucketing -/

/-- Auxiliary: lookup after set at the same key. -/
theorem bucketsGet_set_self (m : List (Option Nat × StoryBucket)) (k : Option Nat)
    (b : StoryBucket) : bucketsGet (bucketsSet m k b) k = some b := by
  induction m with
  | nil => simp [bucketsSet, bucketsGet]
  | cons p rest ih =>
      rw [bucketsSet]
      by_cases hp : p.1 = k
      · rw [if_pos hp, bucketsGet, if_pos hp]
      · rw [if_neg hp, bucketsGet, if_neg hp]
        exact ih

/-- Auxiliary: lookup after set at a different key. -/
theorem bucketsGet_set_ne (m : List (Option Nat × StoryBucket)) (k k2 : Option Nat)
    (b : StoryBucket) (hne : k2 ≠ k) :
    bucketsGet (bucketsSet m k b) k2 = bucketsGet m k2 := by
  induction m with
  | nil =>
      rw [bucketsSet, bucketsGet, bucketsGet, if_neg (fun h => hne h.symm)]
      rfl
  | cons p rest ih =>
      rw [bucketsSet]
      by_cases hp : p.1 = k
      · rw [if_pos hp, bucketsGet, bucketsGet, if_neg (by rw [hp]; exact fun h => hne h.symm),
          if_neg (by rw [hp]; exact fun h => hne h.symm)]
      · rw [if_neg hp, bucketsGet, bucketsGet]
        by_cases hp2 : p.1 = k2
        · rw [if_pos hp2, if_pos hp2]
        · rw [if_neg hp2, if_neg hp2]
          exact ih

/-- Auxiliary: a successful lookup is a member of the association list. -/
theorem bucketsGet_mem (m : List (Option Nat × StoryBucket)) (k : Option Nat)
    (b : StoryBucket) (h : bucketsGet m k = some b) : (k, b) ∈ m := by
  induction m with
  | nil => simp [bucketsGet] at h
  | cons p rest ih =>
      rw [bucketsGet] at h
      by_cases hp : p.1 = k
      · rw [if_pos hp] at h
        cases p with
        | mk k2 b2 =>
            simp only at hp
            simp only [Option.some.injEq] at h
            rw [← hp, ← h]
            exact List.mem_cons_self _ _
      · rw [if_neg hp] at h
        exact List.mem_cons_of_mem _ (ih h)

/-- Auxiliary: a key has a bucket exactly when it is among the map's keys. -/
theorem bucketsGet_isSome_iff (m : List (Option Nat × StoryBucket)) (k : Option Nat) :
    (bucketsGet m k).isSome = true ↔ k ∈ m.map Prod.fst := by
  induction m with
  | nil => simp [bucketsGet]
  | cons p rest ih =>
      rw [bucketsGet]
      by_cases hp : p.1 = k
      · rw [if_pos hp]
        simp [hp]
      · rw [if_neg hp]
        simp only [List.map_cons, List.mem_cons]
        rw [ih]
        constructor
        · exact fun h => Or.inr h
        · rintro (h1 | h2)
          · exact absurd h1.symm hp
          · exact h2

/-- Auxiliary: setting an existing key keeps the key list. -/
theorem bucketsSet_keys_mem (m : List (Option Nat × StoryBucket)) (k : Option Nat)
    (b : StoryBucket) (h : k ∈ m.map Prod.fst) :
    (bucketsSet m k b).map Prod.fst = m.map Prod.fst := by
  induction m with
  | nil => simp at h
  | cons p rest ih =>
      rw [bucketsSet]
      by_cases hp : p.1 = k
      · rw [if_pos hp]
        simp
      · rw [if_neg hp]
        simp only [List.map_cons, List.cons.injEq, true_and]
        apply ih
        simp only [List.map_cons, List.mem_cons] at h
        rcases h with h1 | h2
        · exact absurd h1.symm hp
        · exact h2

/-- Auxiliary: setting a fresh key appends it to the key list. -/
theorem bucketsSet_keys_new (m : List (Option Nat × StoryBucket)) (k : Option Nat)
    (b : StoryBucket) (h : k ∉ m.map Prod.fst) :
    (bucketsSet m k b).map Prod.fst = m.map Prod.fst ++ [k] := by
  induction m with
  | nil => simp [bucketsSet]
  | cons p rest ih =>
      rw [bucketsSet]
      by_cases hp : p.1 = k
      · exact absurd (by simp [hp]) h
      · rw [if_neg hp]
        simp only [List.map_cons, List.cons_append, List.cons.injEq, true_and]
        apply ih
        intro hmem
        exact h (by simp [hmem])

/-- Auxiliary: one loop step preserves key distinctness. -/
theorem storyBucketStep_keys_nodup (m : List (Option Nat × StoryBucket))
    (item : StoryItem) (h : (m.map Prod.fst).Nodup) :
    ((storyBucketStep m item).map Prod.fst).Nodup := by
  rw [storyBucketStep]
  by_cases hk : storyDateKey item ∈ m.map Prod.fst
  · rw [bucketsSet_keys_mem _ _ _ hk]
    exact h
  · rw [bucketsSet_keys_new _ _ _ hk]
    simp [List.nodup_append, h, hk]

/-- Auxiliary: one loop step preserves existing keys and adds the item's. -/
theorem storyBucketStep_keys_mono (m : List (Option Nat × StoryBucket))
    (item : StoryItem) (k : Option Nat) (h : k ∈ m.map Prod.fst) :
    k ∈ (storyBucketStep m item).map Prod.fst := by
  rw [storyBucketStep]
  by_cases hk : storyDateKey item ∈ m.map Prod.fst
  · rw [bucketsSet_keys_mem _ _ _ hk]
    exact h
  · rw [bucketsSet_keys_new _ _ _ hk]
    exact List.mem_append_left _ h

/-- Auxiliary: after its loop step, the item's key is present. -/
theorem storyBucketStep_keys_self (m : List (Option Nat × StoryBucket))
    (item : StoryItem) :
    storyDateKey item ∈ (storyBucketStep m item).map Prod.fst := by
  rw [storyBucketStep]
  by_cases hk : storyDateKey item ∈ m.map Prod.fst
  · rw [bucketsSet_keys_mem _ _ _ hk]
    exact hk
  · rw [bucketsSet_keys_new _ _ _ hk]
    simp

/-- Auxiliary: the map's keys stay distinct over the whole loop. -/
theorem storiesByDate_keys_nodup_aux (items : List StoryItem) :
    ∀ m : List (Option Nat × StoryBucket), (m.map Prod.fst).Nodup →
      ((items.foldl storyBucketStep m).map Prod.fst).Nodup := by
  induction items with
  | nil => intro m h; exact h
  | cons item rest ih =>
      intro m h
      rw [List.foldl_cons]
      exact ih _ (storyBucketStep_keys_nodup m item h)

/-- Auxiliary: existing keys survive the rest of the loop. -/
theorem storiesByDate_keys_mono_aux (items : List StoryItem) :
    ∀ (m : List (Option Nat × StoryBucket)) (k : Option Nat),
      k ∈ m.map Prod.fst →
      k ∈ ((items.foldl storyBucketStep m).map Prod.fst) := by
  induction items with
  | nil => intro m k h; exact h
  | cons it rest ih =>
      intro m k h
      rw [List.foldl_cons]
      exact ih _ _ (storyBucketStep_keys_mono m it k h)

/-- Auxiliary: every processed item's key ends up among the map's keys. -/
theorem storiesByDate_keys_mem_aux (items : List StoryItem) :
    ∀ m : List (Option Nat × StoryBucket), ∀ item ∈ items,
      storyDateKey item ∈ ((items.foldl storyBucketStep m).map Prod.fst) := by
  induction items with
  | nil => intro m item h; simp at h
  | cons it rest ih =>
      intro m item h
      rw [List.foldl_cons]
      rcases List.mem_cons.mp h with h1 | h2
      · rw [h1]
        exact storiesByDate_keys_mono_aux rest _ _ (storyBucketStep_keys_self m it)
      · exact ih _ item h2

/-- Auxiliary: closed form of a bucket lookup after the whole loop, in terms
of the items carrying that key. -/
theorem storiesByDate_get_eq (items : List StoryItem) (k : Option Nat) :
    bucketsGet (storiesByDate items) k =
      match items.filter (sameKey k) with
      | [] => none
      | first :: rest =>
        some (StoryBucket.mk first.taken_at_date
          ((first :: rest).flatMap storyItemUrls)) := by
  induction items using List.reverseRecOn with
  | nil => simp [storiesByDate, bucketsGet]
  | append_singleton l item ih =>
      have hsbd : storiesByDate (l ++ [item]) = storyBucketStep (storiesByDate l) item := by
        rw [storiesByDate, List.foldl_append, storiesByDate]
        rfl
      rw [hsbd, List.filter_append]
      by_cases hk : storyDateKey item = k
      · have hsk : sameKey k item = true := by
          rw [sameKey, beq_iff_eq]
          exact hk
        rw [storyBucketStep]
        simp only [hk]
        rw [bucketsGet_set_self]
        simp only [List.filter_cons, hsk, if_pos, List.filter_nil]
        cases hfl : l.filter (sameKey k) with
        | nil =>
            rw [hfl] at ih
            simp only at ih
            rw [ih]
            simp
        | cons first rest =>
            rw [hfl] at ih
            simp only at ih
            rw [ih]
            simp [List.flatMap_append]
      · have hsk : sameKey k item = false := by
          rw [sameKey, beq_eq_false_iff_ne]
          exact hk
        rw [storyBucketStep]
        rw [bucketsGet_set_ne _ _ _ _ (fun h => hk h.symm)]
        rw [List.filter_cons_of_neg (by rw [hsk]; exact Bool.false_ne_true)]
        rw [List.filter_nil, List.append_nil]
        exact ih

/-- C4: per story item, the loop pushes only the video URL when one is
present (truthy), pushes the thumbnail URL only when no video URL is present,
and the item's bucket gains exactly that selection. -/
theorem storyVideoPreference (item : StoryItem) (m : List (Option Nat × StoryBucket)) :
    (truthyStr item.video_url = true → truthyStr item.thumbnail_url = true →
      storyItemUrls item = [item.video_url.getD ""]) ∧
    (truthyStr item.video_url = false → truthyStr item.thumbnail_url = true →
      storyItemUrls item = [item.thumbnail_url.getD ""]) ∧
    ((bucketsGet (storyBucketStep m item) (storyDateKey item)).map StoryBucket.urls
      = some (((bucketsGet m (storyDateKey item)).map StoryBucket.urls).getD []
          ++ storyItemUrls item)) := by
  refine ⟨?_, ?_, ?_⟩
  · intro hv ht
    simp [storyItemUrls, hv, ht]
  · intro hv ht
    simp [storyItemUrls, hv, ht]
  · simp only [storyBucketStep]
    rw [bucketsGet_set_self]
    cases hg : bucketsGet m (storyDateKey item) with
    | none => simp [hg]
    | some b => simp [hg]

/-- Witness for C4 at a concrete item carrying both a video URL and a
thumbnail URL: only the video URL is its bucket contribution. -/
theorem storyVideoPreference_witness :
    truthyStr storyItemBoth.video_url = true ∧
    truthyStr storyItemBoth.thumbnail_url = true ∧
    storyItemUrls storyItemBoth = [storyItemBoth.video_url.getD ""] ∧
    ((bucketsGet (storyBucketStep [] storyItemBoth) (storyDateKey storyItemBoth)).map
        StoryBucket.urls
      = some (((bucketsGet [] (storyDateKey storyItemBoth)).map StoryBucket.urls).getD []
          ++ storyItemUrls storyItemBoth)) :=
  ⟨by decide, by decide,
   (storyVideoPreference storyItemBoth []).1 (by decide) (by decide),
   (storyVideoPreference storyItemBoth []).2.2⟩

/-- C5: the bucketing of `fetchContent` groups items by KST calendar day:
the bucket keys are distinct (one bucket, hence one PostData, per key); two
items whose timestamps share a KST day share a key; every item's key is
present; an item lacking a timestamp has the shared `none` ("unknown") key;
each bucket's url list is exactly the selections of the items carrying its
key, in order, and the bucket's representative date is the first such item's
date (so the unknown bucket carries no date); and the unknown bucket yields a
PostData with no timestamp. -/
theorem storyBucketing_spec (items : List StoryItem) :
    ((storiesByDate items).map Prod.fst).Nodup ∧
    (∀ it1 ∈ items, ∀ it2 ∈ items, ∀ t1 t2,
      it1.taken_at_date = some t1 → it2.taken_at_date = some t2 →
      kstDayNumber t1 = kstDayNumber t2 →
      storyDateKey it1 = storyDateKey it2) ∧
    (∀ item ∈ items, storyDateKey item ∈ (storiesByDate items).map Prod.fst) ∧
    (∀ item ∈ items, item.taken_at_date = none → storyDateKey item = none) ∧
    (∀ k b, bucketsGet (storiesByDate items) k = some b →
      b.urls = (items.filter (sameKey k)).flatMap storyItemUrls ∧
      (k = none → b.date = none)) ∧
    (∀ b, bucketsGet (storiesByDate items) none = some b →
      StoryPostData.mk none b.urls ∈ storyPostDatas items) := by
  have hchar := storiesByDate_get_eq items
  refine ⟨?_, ?_, ?_, ?_, ?_, ?_⟩
  · exact storiesByDate_keys_nodup_aux items [] (by simp)
  · intro it1 _ it2 _ t1 t2 h1 h2 hday
    rw [storyDateKey, storyDateKey, h1, h2]
    simp [hday]
  · exact storiesByDate_keys_mem_aux items []
  · intro item _ h
    rw [storyDateKey, h]
    rfl
  · intro k b hb
    rw [hchar k] at hb
    cases hfl : items.filter (sameKey k) with
    | nil =>
        rw [hfl] at hb
        simp at hb
    | cons first rest =>
        rw [hfl] at hb
        simp only [Option.some.injEq] at hb
        constructor
        · rw [← hb]
        · intro hknone
          have hfirst : first ∈ items.filter (sameKey k) := by
            rw [hfl]
            exact List.mem_cons_self _ _
          have hsk : sameKey k first = true := (List.mem_filter.mp hfirst).2
          rw [sameKey, beq_iff_eq] at hsk
          rw [hknone] at hsk
          have htak : first.taken_at_date = none := by
            rw [storyDateKey] at hsk
            exact Option.map_eq_none.mp hsk
          rw [← hb]
          simp [htak]
  · intro b hb
    have hmem := bucketsGet_mem _ _ _ hb
    have hdate : b.date = none := by
      cases hfl : items.filter (sameKey none) with
      | nil =>
          rw [hchar none, hfl] at hb
          simp at hb
      | cons first rest =>
          rw [hchar none, hfl] at hb
          simp only [Option.some.injEq] at hb
          have hfirst : first ∈ items.filter (sameKey none) := by
            rw [hfl]
            exact List.mem_cons_self _ _
          have hsk : sameKey none first = true := (List.mem_filter.mp hfirst).2
          rw [sameKey, beq_iff_eq] at hsk
          have htak : first.taken_at_date = none := by
            rw [storyDateKey] at hsk
            exact Option.map_eq_none.mp hsk
          rw [← hb]
          simp [htak]
    have : StoryPostData.mk b.date b.urls ∈ storyPostDatas items := by
      rw [storyPostDatas]
      exact List.mem_map.mpr ⟨(none, b), hmem, rfl⟩
    rw [hdate] at this
    exact this

/-- Witness for C5 at two concrete items: one with a timestamp, one without;
the keys are distinct, the timestampless item has the unknown key, and the
unknown bucket yields the PostData with no timestamp and that item's
thumbnail. -/
theorem storyBucketing_spec_witness :
    ((storiesByDate [storyItemBoth, storyItemUnknown]).map Prod.fst).Nodup ∧
    storyDateKey storyItemUnknown = none ∧
    StoryPostData.mk none ["https://cdn.example/thumb2.jpg"]
      ∈ storyPostDatas [storyItemBoth, storyItemUnknown] :=
  ⟨(storyBucketing_spec [storyItemBoth, storyItemUnknown]).1,
   (storyBucketing_spec [storyItemBoth, storyItemUnknown]).2.2.2.1 storyItemUnknown
     (List.mem_cons_of_mem _ (List.mem_cons_self _ _)) rfl,
   (storyBucketing_spec [storyItemBoth, storyItemUnknown]).2.2.2.2.2
     (StoryBucket.mk none ["https://cdn.example/thumb2.jpg"]) (by decide)⟩

/-! ## C7: link extraction order -/

/-- Auxiliary: every match the scanner reports starts at or after the
position it was given. -/
theorem scanAllGo_pos_ge {α : Type} (m : List Char → Option (Nat × α)) :
    ∀ (fuel : Nat) (s : List Char) (pos : Nat),
      ∀ h ∈ scanAllGo m fuel s pos, pos ≤ h.pos := by
  intro fuel
  induction fuel with
  | zero => intro s pos h hh; simp [scanAllGo] at hh
  | succ n ih =>
      intro s pos h hh
      cases s with
      | nil => simp [scanAllGo] at hh
      | cons c rest =>
          rw [scanAllGo] at hh
          split at hh
          · rcases List.mem_cons.mp hh with h1 | h2
            · rw [h1]
            · have := ih _ _ h h2
              omega
          · have := ih _ _ h hh
            omega

/-- Auxiliary: the scanner reports matches at strictly increasing
positions. -/
theorem scanAllGo_pos_pairwise {α : Type} (m : List Char → Option (Nat × α)) :
    ∀ (fuel : Nat) (s : List Char) (pos : Nat),
      ((scanAllGo m fuel s pos).map (fun h => h.pos)).Pairwise (· < ·) := by
  intro fuel
  induction fuel with
  | zero => intro s pos; simp [scanAllGo]
  | succ n ih =>
      intro s pos
      cases s with
      | nil => simp [scanAllGo]
      | cons c rest =>
          rw [scanAllGo]
          split
          · simp only [List.map_cons]
            rw [List.pairwise_cons]
            constructor
            · intro p hp
              simp only [List.mem_map] at hp
              obtain ⟨h2, hh2, rfl⟩ := hp
              have hge := scanAllGo_pos_ge m n _ _ h2 hh2
              omega
            · exact ih _ _
          · exact ih _ _

/-- C7 counterexample: in the concrete message holding an instagram post URL
(position 0) and then a twitter URL (position 28), `findAllSnsLinks` returns
the twitter link first, because the handler concatenates the platforms'
results in registration order instead of merging them by position. -/
theorem findAllSnsLinks_order_cex :
    ¬ (∀ text : List Char,
        ((findAllSnsLinksPos text).map PosLink.pos).Pairwise (· ≤ ·)) := by
  intro hclaim
  have h2 := hclaim cText7
  have e : (findAllSnsLinksPos cText7).map PosLink.pos = [28, 0] := by decide
  rw [e] at h2
  have hnot : ¬ ([28, 0] : List Nat).Pairwise (· ≤ ·) := by decide
  exact hnot h2

/-- C7 amended: the combined link list is the per-platform lists concatenated
in fixed registration order (twitter, instagram post, instagram story), and
within each platform the links are ordered by strictly increasing position of
their match in the text; the first-occurrence order holds per platform, not
across platforms. -/
theorem findAllSnsLinks_order (text : List Char) :
    findAllSnsLinksPos text
      = twitterFindUrlsPos text ++ igPostFindUrlsPos text ++ igStoryFindUrlsPos text ∧
    ((twitterFindUrlsPos text).map PosLink.pos).Pairwise (· < ·) ∧
    ((igPostFindUrlsPos text).map PosLink.pos).Pairwise (· < ·) ∧
    ((igStoryFindUrlsPos text).map PosLink.pos).Pairwise (· < ·) := by
  refine ⟨rfl, ?_, ?_, ?_⟩ <;>
    · simp only [twitterFindUrlsPos, igPostFindUrlsPos, igStoryFindUrlsPos, scanAll,
        List.map_map, Function.comp]
      exact scanAllGo_pos_pairwise _ _ _ _

/-! ## C6: extractors never double-match -/

/-- Auxiliary: ASCII lowering maps no character other than the slash itself
to a slash. -/
theorem toLower_ne_slash (c : Char) (h : c ≠ '/') : Char.toLower c ≠ '/' := by
  simp only [Char.toLower]
  split
  · next hr =>
      intro hc
      set m := Char.toNat c + 32 with hm
      have h1 : 97 ≤ m := by omega
      have h2 : m ≤ 122 := by omega
      interval_cases m <;> simp_all
  · exact h

/-- Auxiliary: `[\w-]` characters never lower to a slash. -/
theorem isWordDashChar_lower (c : Char) (h : isWordDashChar c = true) :
    Char.toLower c ≠ '/' := by
  apply toLower_ne_slash
  intro hc
  rw [hc] at h
  exact absurd h (by decide)

/-- Auxiliary: `[\w.]` characters never lower to a slash. -/
theorem isWordDotChar_lower (c : Char) (h : isWordDotChar c = true) :
    Char.toLower c ≠ '/' := by
  apply toLower_ne_slash
  intro hc
  rw [hc] at h
  exact absurd h (by decide)

/-- Auxiliary: a successful literal consumption means the input lowers to
the literal followed by the remainder. -/
theorem ciLit_lower (lit : List Char) :
    ∀ s r : List Char, ciLit lit s = some r →
      s.map Char.toLower = lit ++ r.map Char.toLower := by
  induction lit with
  | nil =>
      intro s r h
      rw [ciLit] at h
      simp only [Option.some.injEq] at h
      rw [h, List.nil_append]
  | cons c cs ih =>
      intro s r h
      cases s with
      | nil => simp [ciLit] at h
      | cons x xs =>
          rw [ciLit] at h
          by_cases hx : x.toLower == c
          · rw [if_pos hx] at h
            rw [List.map_cons, ih xs r h, List.cons_append]
            rw [beq_iff_eq] at hx
            rw [hx]
          · rw [if_neg hx] at h
            exact absurd h (by simp)

/-- Auxiliary: a successful alternation consumption picks one of the
literals. -/
theorem ciAlt_lower (lits : List (List Char)) :
    ∀ s r : List Char, ciAlt lits s = some r →
      ∃ lit ∈ lits, s.map Char.toLower = lit ++ r.map Char.toLower := by
  induction lits with
  | nil => intro s r h; simp [ciAlt] at h
  | cons l ls ih =>
      intro s r h
      rw [ciAlt] at h
      cases hl : ciLit l s with
      | some r2 =>
          rw [hl] at h
          simp only [Option.some.injEq] at h
          exact ⟨l, by simp, by rw [← h]; exact ciLit_lower l s r2 hl⟩
      | none =>
          rw [hl] at h
          obtain ⟨lit, hlit, heq⟩ := ih s r h
          exact ⟨lit, List.mem_cons_of_mem _ hlit, heq⟩

/-- Auxiliary: an optional alternation consumes one of the literals or
nothing. -/
theorem ciOpt_lower (lits : List (List Char)) (s : List Char) :
    ∃ pre, (pre = [] ∨ pre ∈ lits) ∧
      s.map Char.toLower = pre ++ (ciOpt lits s).map Char.toLower := by
  rw [ciOpt]
  cases ha : ciAlt lits s with
  | none => exact ⟨[], Or.inl rfl, by rw [Option.getD, List.nil_append]⟩
  | some r =>
      obtain ⟨lit, hlit, heq⟩ := ciAlt_lower lits s r ha
      exact ⟨lit, Or.inr hlit, by rw [Option.getD]; exact heq⟩

/-- Auxiliary: the greedy class run splits the input and satisfies the
class. -/
theorem chompRun_sound (p : Char → Bool) :
    ∀ s : List Char, (chompRun p s).1 ++ (chompRun p s).2 = s ∧
      ∀ c ∈ (chompRun p s).1, p c = true := by
  intro s
  induction s with
  | nil => simp [chompRun]
  | cons c cs ih =>
      rw [chompRun]
      by_cases hc : p c
      · simp only [if_pos hc]
        constructor
        · rw [List.cons_append, ih.1]
        · intro c2 hc2
          rcases List.mem_cons.mp hc2 with h1 | h2
          · rw [h1]; exact hc
          · exact ih.2 c2 h2
      · simp [hc]

/-- Auxiliary: `X+` consumption yields a non-empty class run plus the
remainder. -/
theorem chompPlus_sound (p : Char → Bool) (s run r : List Char)
    (h : chompPlus p s = some (run, r)) :
    s = run ++ r ∧ run ≠ [] ∧ ∀ c ∈ run, p c = true := by
  rw [chompPlus] at h
  by_cases he : (chompRun p s).1.isEmpty
  · rw [if_pos he] at h
    exact absurd h (by simp)
  · rw [if_neg he] at h
    have hpair : chompRun p s = (run, r) := Option.some.inj h
    have h1 : (chompRun p s).1 = run := by rw [hpair]
    have h2 : (chompRun p s).2 = r := by rw [hpair]
    refine ⟨by rw [← h1, ← h2, (chompRun_sound p s).1], ?_, ?_⟩
    · rw [← h1]
      intro hnil
      rw [hnil] at he
      exact he rfl
    · intro c hc
      rw [← h1] at hc
      exact (chompRun_sound p s).2 c hc

/-- Auxiliary: `X{n,}` consumption yields a class run plus the remainder. -/
theorem chompAtLeast_sound (p : Char → Bool) (n : Nat) (s run r : List Char)
    (h : chompAtLeast p n s = some (run, r)) :
    s = run ++ r ∧ ∀ c ∈ run, p c = true := by
  rw [chompAtLeast] at h
  by_cases he : (chompRun p s).1.length < n
  · rw [if_pos he] at h
    exact absurd h (by simp)
  · rw [if_neg he] at h
    have hpair : chompRun p s = (run, r) := Option.some.inj h
    have h1 : (chompRun p s).1 = run := by rw [hpair]
    have h2 : (chompRun p s).2 = r := by rw [hpair]
    refine ⟨by rw [← h1, ← h2, (chompRun_sound p s).1], ?_⟩
    intro c hc
    rw [← h1] at hc
    exact (chompRun_sound p s).2 c hc

/-- Auxiliary: two decompositions of one list have comparable first parts. -/
theorem listPrefixTotal {α : Type} :
    ∀ (l1 l2 t1 t2 : List α), l1 ++ t1 = l2 ++ t2 →
      l1 <+: l2 ∨ l2 <+: l1 := by
  intro l1
  induction l1 with
  | nil => intro l2 t1 t2 h; exact Or.inl List.nil_prefix
  | cons a l1 ih =>
      intro l2 t1 t2 h
      cases l2 with
      | nil => exact Or.inr List.nil_prefix
      | cons b l2 =>
          rw [List.cons_append, List.cons_append] at h
          injection h with h1 h2
          rcases ih l2 t1 t2 h2 with hp | hp
          · exact Or.inl (List.cons_prefix_cons.mpr ⟨h1, hp⟩)
          · exact Or.inr (List.cons_prefix_cons.mpr ⟨h1.symm, hp⟩)

/-- Auxiliary: a slash-terminated slash-free segment determines itself. -/
theorem slashfreeAppendInj :
    ∀ (a b x y : List Char), (∀ c ∈ a, c ≠ '/') → (∀ c ∈ b, c ≠ '/') →
      a ++ '/' :: x = b ++ '/' :: y → a = b ∧ x = y := by
  intro a
  induction a with
  | nil =>
      intro b x y _ hb h
      cases b with
      | nil =>
          rw [List.nil_append, List.nil_append] at h
          injection h with _ h2
          exact ⟨rfl, h2⟩
      | cons c2 b2 =>
          rw [List.nil_append, List.cons_append] at h
          injection h with h1 _
          exact absurd h1.symm (hb c2 (by simp))
  | cons c1 a1 ih =>
      intro b x y ha hb h
      cases b with
      | nil =>
          rw [List.nil_append, List.cons_append] at h
          injection h with h1 _
          exact absurd h1 (ha c1 (by simp))
      | cons c2 b2 =>
          rw [List.cons_append, List.cons_append] at h
          injection h with h1 h2
          have := ih b2 x y (fun c hc => ha c (by simp [hc])) (fun c hc => hb c (by simp [hc])) h2
          exact ⟨by rw [h1, this.1], this.2⟩

/-- Auxiliary (by computation): no twitter authority prefix is comparable
with an instagram authority prefix. -/
theorem twIgPrefixIncomp :
    ∀ p ∈ twitterPrefixStrings, ∀ q ∈ igPrefixStrings,
      ¬ p <+: q ∧ ¬ q <+: p := by decide

/-- Auxiliary (by computation): two instagram authority prefixes are equal
or incomparable. -/
theorem igIgPrefixEqOrIncomp :
    ∀ p ∈ igPrefixStrings, ∀ q ∈ igPrefixStrings,
      p = q ∨ (¬ p <+: q ∧ ¬ q <+: p) := by decide

/-- Auxiliary (by computation): building a twitter authority prefix from its
parts lands in `twitterPrefixStrings`. -/
theorem twPrefixBuild :
    ∀ sch ∈ [("http://".toList : List Char), "https://".toList],
    ∀ sub ∈ [([] : List Char), "www.".toList, "m.".toList, "mobile.".toList],
    ∀ host ∈ [("twitter.com".toList : List Char), "x.com".toList],
      sch ++ sub ++ host ∈ twitterPrefixStrings := by decide

/-- Auxiliary (by computation): building an instagram authority prefix from
its parts lands in `igPrefixStrings`. -/
theorem igPrefixBuild :
    ∀ sch ∈ [("http://".toList : List Char), "https://".toList],
    ∀ sub ∈ [([] : List Char), "www.".toList],
      sch ++ sub ++ "instagram.com/".toList ∈ igPrefixStrings := by decide

/-- Auxiliary: inversion of the scheme part. -/
theorem schemeHttp_lower (s s1 : List Char) (h : schemeHttp s = some s1) :
    ∃ sch, sch ∈ [("http://".toList : List Char), "https://".toList] ∧
      s.map Char.toLower = sch ++ s1.map Char.toLower := by
  rw [schemeHttp] at h
  cases h4 : ciLit "http".toList s with
  | none => rw [h4] at h; exact absurd h (by simp)
  | some sA =>
      rw [h4] at h
      have e1 := ciLit_lower "http".toList s sA h4
      obtain ⟨os, hos, e2⟩ := ciOpt_lower [['s']] sA
      have e3 := ciLit_lower "://".toList _ _ h
      rcases hos with rfl | hos2
      · refine ⟨"http://".toList, by simp, ?_⟩
        rw [e1, e2, List.nil_append, e3]
        have hm : ("http".toList : List Char) ++ "://".toList = "http://".toList := by decide
        rw [← List.append_assoc, hm]
      · have hos3 : os = ['s'] := by simpa using hos2
        subst hos3
        refine ⟨"https://".toList, by simp, ?_⟩
        rw [e1, e2, e3]
        have hm : ("http".toList ++ ['s']) ++ "://".toList
            = ("https://".toList : List Char) := by decide
        rw [← List.append_assoc, ← List.append_assoc, hm]

/-- Auxiliary: a twitter match starts (lowered) with one of the twitter
scheme-plus-authority prefixes. -/
theorem twitterMatchAt_prefix (s : List Char) (x : Nat × TwCaps)
    (h : twitterMatchAt s = some x) :
    ∃ pre rest, pre ∈ twitterPrefixStrings ∧
      s.map Char.toLower = pre ++ rest := by
  rw [twitterMatchAt] at h
  cases hsc : schemeHttp s with
  | none => rw [hsc] at h; exact absurd h (by simp)
  | some s1 =>
      rw [hsc] at h
      dsimp only at h
      cases hha : ciAlt ["twitter.com".toList, "x.com".toList]
          (ciOpt ["www.".toList, "m.".toList, "mobile.".toList] s1) with
      | none => rw [hha] at h; exact absurd h (by simp)
      | some s3 =>
          obtain ⟨sch, hsch, e1⟩ := schemeHttp_lower s s1 hsc
          obtain ⟨sub, hsub, e2⟩ :=
            ciOpt_lower ["www.".toList, "m.".toList, "mobile.".toList] s1
          obtain ⟨host, hhost, e3⟩ := ciAlt_lower _ _ s3 hha
          have hsub2 : sub ∈ [([] : List Char), "www.".toList, "m.".toList,
              "mobile.".toList] := by
            rcases hsub with rfl | h2
            · simp
            · exact List.mem_cons_of_mem _ h2
          refine ⟨sch ++ sub ++ host, s3.map Char.toLower,
            twPrefixBuild sch hsch sub hsub2 host hhost, ?_⟩
          rw [e1, e2, e3]
          simp [List.append_assoc]

/-- Auxiliary: decomposition of the instagram-post middle-and-id tail: a
slash-free segment, a slash, and a non-empty remainder. -/
theorem igPostTail_decomp (s3 s4 : List Char) (h : igPostTail s3 = some s4) :
    ∃ a y, s3.map Char.toLower = a ++ '/' :: y ∧
      (∀ c ∈ a, c ≠ '/') ∧ y ≠ [] := by
  rw [igPostTail] at h
  cases ha1 : igPostAlt1 s3 with
  | some s1 =>
      rw [igPostAlt1] at ha1
      cases hcp : chompPlus isWordDotChar s3 with
      | none => rw [hcp] at ha1; exact absurd ha1 (by simp)
      | some ur =>
          rw [hcp] at ha1
          obtain ⟨user, r1⟩ := ur
          simp only at ha1
          cases hrl : ciLit "/reel".toList r1 with
          | none => rw [hrl] at ha1; exact absurd ha1 (by simp)
          | some r2 =>
              obtain ⟨hsplit, hne, hcls⟩ := chompPlus_sound _ _ _ _ hcp
              have e1 := ciLit_lower "/reel".toList r1 r2 hrl
              refine ⟨user.map Char.toLower,
                'r' :: 'e' :: 'e' :: 'l' :: r2.map Char.toLower, ?_, ?_, by simp⟩
              · rw [hsplit, List.map_append, e1]
                rfl
              · intro c hc
                simp only [List.mem_map] at hc
                obtain ⟨c0, hc0, rfl⟩ := hc
                exact isWordDotChar_lower c0 (hcls c0 hc0)
  | none =>
      rw [ha1] at h
      dsimp only at h
      cases ha2 : igPostAlt2 s3 with
      | none => rw [ha2] at h; exact absurd h (by simp)
      | some s3' =>
          rw [ha2] at h
          dsimp only at h
          rw [igIdSlash] at h
          cases hcp : chompPlus isWordDashChar s3' with
          | none => rw [hcp] at h; exact absurd h (by simp)
          | some ir =>
              rw [hcp] at h
              obtain ⟨idl, r⟩ := ir
              simp only at h
              obtain ⟨hsplit, hne, hcls⟩ := chompPlus_sound _ _ _ _ hcp
              have e2 := ciLit_lower ['/'] r s4 h
              have e3 : s3'.map Char.toLower
                  = idl.map Char.toLower ++ '/' :: s4.map Char.toLower := by
                rw [hsplit, List.map_append, e2]
                rfl
              have hy : idl.map Char.toLower ++ '/' :: s4.map Char.toLower ≠ [] := by
                simp
              obtain ⟨lit, hlit, e1⟩ := ciAlt_lower _ _ s3' ha2
              have e4 : s3.map Char.toLower
                  = lit ++ (idl.map Char.toLower ++ '/' :: s4.map Char.toLower) := by
                rw [e1, e3]
              simp only [List.mem_cons, List.mem_singleton, List.not_mem_nil,
                or_false] at hlit
              rcases hlit with rfl | rfl | rfl | rfl
              · exact ⟨['p'], _, by rw [e4]; rfl, by decide, hy⟩
              · exact ⟨"reels".toList, _, by rw [e4]; rfl, by decide, hy⟩
              · exact ⟨"reel".toList, _, by rw [e4]; rfl, by decide, hy⟩
              · exact ⟨"tv".toList, _, by rw [e4]; rfl, by decide, hy⟩

/-- Auxiliary: full decomposition of an instagram-post match: an instagram
authority prefix, then a slash-free segment, a slash, and a non-empty
remainder. -/
theorem igPostMatchAt_decomp (s : List Char) (x : Nat × Unit)
    (h : igPostMatchAt s = some x) :
    ∃ pre a y, pre ∈ igPrefixStrings ∧
      s.map Char.toLower = pre ++ (a ++ '/' :: y) ∧
      (∀ c ∈ a, c ≠ '/') ∧ y ≠ [] := by
  rw [igPostMatchAt] at h
  cases hsc : schemeHttp s with
  | none => rw [hsc] at h; exact absurd h (by simp)
  | some s1 =>
      rw [hsc] at h
      dsimp only at h
      cases hig : ciLit "instagram.com/".toList (ciOpt ["www.".toList] s1) with
      | none => rw [hig] at h; exact absurd h (by simp)
      | some s3 =>
          rw [hig] at h
          dsimp only at h
          cases htl : igPostTail s3 with
          | none => rw [htl] at h; exact absurd h (by simp)
          | some s4 =>
              obtain ⟨sch, hsch, e1⟩ := schemeHttp_lower s s1 hsc
              obtain ⟨sub, hsub, e2⟩ := ciOpt_lower ["www.".toList] s1
              have e3 := ciLit_lower "instagram.com/".toList _ s3 hig
              obtain ⟨a, y, e4, ha, hy⟩ := igPostTail_decomp s3 s4 htl
              have hsub2 : sub ∈ [([] : List Char), "www.".toList] := by
                rcases hsub with rfl | h2
                · simp
                · exact List.mem_cons_of_mem _ h2
              refine ⟨sch ++ sub ++ "instagram.com/".toList, a, y,
                igPrefixBuild sch hsch sub hsub2, ?_, ha, hy⟩
              rw [e1, e2, e3, e4]
              simp [List.append_assoc]

/-- Auxiliary: full decomposition of an instagram-story match: an instagram
authority prefix, then a slash-free segment and a final slash ending the
input (the regex's end anchor). -/
theorem igStoryMatchAt_decomp (s : List Char) (x : Nat × Unit)
    (h : igStoryMatchAt s = some x) :
    ∃ pre seg, pre ∈ igPrefixStrings ∧
      s.map Char.toLower = pre ++ (seg ++ '/' :: []) ∧
      (∀ c ∈ seg, c ≠ '/') := by
  rw [igStoryMatchAt] at h
  cases hsc : schemeHttp s with
  | none => rw [hsc] at h; exact absurd h (by simp)
  | some s1 =>
      rw [hsc] at h
      dsimp only at h
      cases hig : ciLit "instagram.com/".toList (ciOpt ["www.".toList] s1) with
      | none => rw [hig] at h; exact absurd h (by simp)
      | some s3 =>
          rw [hig] at h
          dsimp only at h
          cases hca : chompAtLeast isWordDashChar 3 s3 with
          | none => rw [hca] at h; exact absurd h (by simp)
          | some sr =>
              obtain ⟨seg0, s4⟩ := sr
              rw [hca] at h
              dsimp only at h
              cases hsl : ciLit ['/'] s4 with
              | none => rw [hsl] at h; exact absurd h (by simp)
              | some s5 =>
                  rw [hsl] at h
                  dsimp only at h
                  by_cases h5 : s5.isEmpty
                  · have h5nil : s5 = [] := by
                      cases s5 with
                      | nil => rfl
                      | cons c cs => simp [List.isEmpty] at h5
                    obtain ⟨hsplit, hcls⟩ := chompAtLeast_sound _ _ _ _ _ hca
                    have e4 := ciLit_lower ['/'] s4 s5 hsl
                    rw [h5nil] at e4
                    obtain ⟨sch, hsch, e1⟩ := schemeHttp_lower s s1 hsc
                    obtain ⟨sub, hsub, e2⟩ := ciOpt_lower ["www.".toList] s1
                    have e3 := ciLit_lower "instagram.com/".toList _ s3 hig
                    have hsub2 : sub ∈ [([] : List Char), "www.".toList] := by
                      rcases hsub with rfl | h2
                      · simp
                      · exact List.mem_cons_of_mem _ h2
                    refine ⟨sch ++ sub ++ "instagram.com/".toList,
                      seg0.map Char.toLower,
                      igPrefixBuild sch hsch sub hsub2, ?_, ?_⟩
                    · rw [e1, e2, e3, hsplit, List.map_append, e4]
                      simp [List.append_assoc]
                    · intro c hc
                      simp only [List.mem_map] at hc
                      obtain ⟨c0, hc0, rfl⟩ := hc
                      exact isWordDashChar_lower c0 (hcls c0 hc0)
                  · rw [if_neg h5] at h
                    exact absurd h (by simp)

/-- C6: no start position in any text is matched by two different platform
extractors; in particular an instagram post/reel URL matched by the
instagram-post extractor is never also matched by the (end-anchored)
instagram-story regular expression. -/
theorem extractors_no_double_match (text : List Char) (i : Nat) :
    (((twitterMatchAt (text.drop i)).isSome
        && (igPostMatchAt (text.drop i)).isSome) = false) ∧
    (((twitterMatchAt (text.drop i)).isSome
        && (igStoryMatchAt (text.drop i)).isSome) = false) ∧
    (((igPostMatchAt (text.drop i)).isSome
        && (igStoryMatchAt (text.drop i)).isSome) = false) := by
  refine ⟨?_, ?_, ?_⟩
  · cases h1 : twitterMatchAt (text.drop i) with
    | none => simp
    | some x1 =>
        cases h2 : igPostMatchAt (text.drop i) with
        | none => simp
        | some x2 =>
            exfalso
            obtain ⟨p, rest, hp, e1⟩ := twitterMatchAt_prefix _ x1 h1
            obtain ⟨q, a, y, hq, e2, _, _⟩ := igPostMatchAt_decomp _ x2 h2
            have hcmp := listPrefixTotal p q rest (a ++ '/' :: y) (by rw [← e1, ← e2])
            have hinc := twIgPrefixIncomp p hp q hq
            rcases hcmp with hc | hc
            · exact hinc.1 hc
            · exact hinc.2 hc
  · cases h1 : twitterMatchAt (text.drop i) with
    | none => simp
    | some x1 =>
        cases h2 : igStoryMatchAt (text.drop i) with
        | none => simp
        | some x2 =>
            exfalso
            obtain ⟨p, rest, hp, e1⟩ := twitterMatchAt_prefix _ x1 h1
            obtain ⟨q, seg, hq, e2, _⟩ := igStoryMatchAt_decomp _ x2 h2
            have hcmp := listPrefixTotal p q rest (seg ++ '/' :: []) (by rw [← e1, ← e2])
            have hinc := twIgPrefixIncomp p hp q hq
            rcases hcmp with hc | hc
            · exact hinc.1 hc
            · exact hinc.2 hc
  · cases h1 : igPostMatchAt (text.drop i) with
    | none => simp
    | some x1 =>
        cases h2 : igStoryMatchAt (text.drop i) with
        | none => simp
        | some x2 =>
            exfalso
            obtain ⟨p, a, y, hp, e1, ha, hy⟩ := igPostMatchAt_decomp _ x1 h1
            obtain ⟨q, seg, hq, e2, hseg⟩ := igStoryMatchAt_decomp _ x2 h2
            rcases igIgPrefixEqOrIncomp p hp q hq with heq | hinc
            · subst heq
              have e3 : a ++ '/' :: y = seg ++ '/' :: [] :=
                List.append_cancel_left (by rw [← e1, ← e2])
              have hinj := slashfreeAppendInj a seg y [] ha hseg e3
              exact hy hinj.2
            · rcases listPrefixTotal p q (a ++ '/' :: y) (seg ++ '/' :: [])
                  (by rw [← e1, ← e2]) with hc | hc
              · exact hinc.1 hc
              · exact hinc.2 hc
